import Mathlib

/-!
Verification development for the Raven chat client.

This file embeds, as executable Lean definitions, the client-side state
synchronization logic of the repository:

* the optimistic message-reaction cache merge of
  `packages/lib/hooks/useReactToMessage.ts`;
* the chat pagination merge `addToMessages` and the older-message loading
  flag of `useChatPagination`;
* the TTS auto-play message-deduplication effect of
  `frontend/src/hooks/useTTSAutoPlay.ts`;
* the AI-thread auto-navigation guard of
  `apps/mobile/components/features/chat/AIThreadAutoOpen.tsx`.

JavaScript objects keyed by strings (the reactions record) are embedded as
association lists in insertion order, which is how a JS engine stores and
iterates string-keyed properties.  Machine-level concerns (DOM text
extraction, JSON codecs) that the code delegates to the platform are taken
as parameters.
-/

namespace Raven

/-- `ReactionObject` from the chat-stream types: the per-emoji entry of a
message's reactions record, as read and written by `useReactToMessage`. -/
structure ReactionObject where
  reaction : String
  users : List String
  count : Int
  emoji_name : String
deriving DecidableEq

/-- A `Record<string, ReactionObject>` — a JS object in insertion order. -/
abbrev ReactionsRecord := List (String × ReactionObject)

/-- Property lookup `existingReactions[emojiKey]` on a JS object: the value
at the first (unique, for parsed JSON) matching key. -/
def lookupReaction (k : String) : ReactionsRecord → Option ReactionObject
  | [] => none
  | (k', v) :: rest => if k' = k then some v else lookupReaction k rest

/-- Property assignment `existingReactions[emojiKey] = v` for a key already
present: replaces the value at the first matching key, in place. -/
def setReaction (k : String) (v : ReactionObject) : ReactionsRecord → ReactionsRecord
  | [] => []
  | (k', v') :: rest =>
    if k' = k then (k', v) :: rest else (k', v') :: setReaction k v rest

/-- Property deletion `delete existingReactions[emojiKey]`. -/
def deleteReaction (k : String) : ReactionsRecord → ReactionsRecord
  | [] => []
  | (k', v') :: rest =>
    if k' = k then deleteReaction k rest else (k', v') :: deleteReaction k rest

/-- `users.filter(u => u !== user.name)` from `useReactToMessage`. -/
def removeUser (u : String) : List String → List String
  | [] => []
  | x :: xs => if x = u then removeUser u xs else x :: removeUser u xs

/-- `const emojiKey = is_custom ? (emoji_name ?? emoji) : emoji`. -/
def emojiKey (emoji : String) (is_custom : Bool) (emoji_name : Option String) : String :=
  if is_custom then emoji_name.getD emoji else emoji

/-- The reactions-record toggle at the heart of `updateMessageWithReaction`
in `useReactToMessage.ts` (lines 36-65): given the reacting user's name and
the emoji arguments, toggles the user's reaction in the record. -/
def updateReactions (userName emoji : String) (is_custom : Bool)
    (emoji_name : Option String) (existingReactions : ReactionsRecord) : ReactionsRecord :=
  let k := emojiKey emoji is_custom emoji_name
  match lookupReaction k existingReactions with
  | some ro =>
    if userName ∈ ro.users then
      if ro.count = 1 then
        deleteReaction k existingReactions
      else
        setReaction k
          { ro with users := removeUser userName ro.users, count := ro.count - 1 }
          existingReactions
    else
      setReaction k
        { ro with users := ro.users ++ [userName], count := ro.count + 1 }
        existingReactions
  | none =>
    existingReactions ++
      [(k, { reaction := emoji, users := [userName], count := 1,
             emoji_name := emoji_name.getD "" })]

/-- The fields of a cached chat-stream message that `useReactToMessage`
reads or writes (`Message` from the common types; `message_reactions` is
the JSON string holding the reactions record). -/
structure ChatMessage where
  name : String
  owner : String
  creation : String
  modified : String
  text : String
  message_reactions : Option String
deriving DecidableEq

/-- The `message` payload of `GetMessagesResponse` from the chat-stream
types. -/
structure MessagesData where
  has_new_messages : Bool
  has_old_messages : Bool
  messages : List ChatMessage
deriving DecidableEq

/-- `GetMessagesResponse`: the cached value under the
`get_messages_for_channel_*` SWR key. -/
structure GetMessagesResponse where
  message : MessagesData
deriving DecidableEq

/-- The body of the `existingMessages.map` in `updateMessageWithReaction`
(lines 28-72): a non-target message is returned unchanged; the target
message gets its `message_reactions` JSON re-written through the reactions
toggle.  The JSON codec (`JSON.parse` / `JSON.stringify`) is the platform's
and is taken as the `parse` / `stringify` parameters. -/
def applyReactionToMessage (parse : String → ReactionsRecord)
    (stringify : ReactionsRecord → String) (targetName userName emoji : String)
    (is_custom : Bool) (emoji_name : Option String) (m : ChatMessage) : ChatMessage :=
  if m.name ≠ targetName then m
  else
    { m with
      message_reactions :=
        some (stringify (updateReactions userName emoji is_custom emoji_name
          (parse (m.message_reactions.getD "\x7b\x7d")))) }

/-- `updateMessageWithReaction` from `useReactToMessage.ts` (lines 24-82):
maps the reaction toggle over the cached messages and rebuilds the
response, defaulting `has_new_messages` to `false` and `has_old_messages`
to `true` when no data is cached. -/
def updateMessageWithReaction (parse : String → ReactionsRecord)
    (stringify : ReactionsRecord → String) (targetName userName emoji : String)
    (is_custom : Bool) (emoji_name : Option String)
    (data : Option GetMessagesResponse) : GetMessagesResponse :=
  let existingMessages := match data with
    | some d => d.message.messages
    | none => []
  { message :=
    { has_new_messages := match data with
        | some d => d.message.has_new_messages
        | none => false
      has_old_messages := match data with
        | some d => d.message.has_old_messages
        | none => true
      messages := existingMessages.map
        (applyReactionToMessage parse stringify targetName userName emoji
          is_custom emoji_name) } }

/-- The SWR mutate options passed by `postReaction`
(`useReactToMessage.ts` lines 95-101). -/
structure SWRMutateOptions where
  rollbackOnError : Bool
  revalidate : Bool
deriving DecidableEq

/-- The concrete options of the reaction mutation:
`rollbackOnError: true, revalidate: false`. -/
def postReactionMutateOptions : SWRMutateOptions :=
  { rollbackOnError := true, revalidate := false }

/-- Modelled from the spec: the bound-cache mutation contract of the
external SWR library used by `postReaction` — the spec states that errors
are handled per-call with optimistic-update rollback.  The cache first
shows `optimisticData`; when the updater resolves its result is committed;
when it rejects and `rollbackOnError` is set the cache is restored to the
pre-update snapshot, otherwise the optimistic value is left in place. -/
def swrOptimisticMutate {α : Type} (opts : SWRMutateOptions) (cache : Option α)
    (updater : Option α → Except Unit α) (optimisticData : Option α → α) : Option α :=
  match updater cache with
  | Except.ok v => some v
  | Except.error _ => if opts.rollbackOnError then cache else some (optimisticData cache)

/-- The cache after `postReaction` runs against an RPC outcome `rpc` of
`raven.api.reactions.react`: the updater performs the RPC and, on success,
returns the locally merged value; `optimisticData` is the same local merge
(`useReactToMessage.ts` lines 84-101). -/
def postReactionCache (parse : String → ReactionsRecord)
    (stringify : ReactionsRecord → String) (targetName userName emoji : String)
    (is_custom : Bool) (emoji_name : Option String) (rpc : Except Unit Unit)
    (cache : Option GetMessagesResponse) : Option GetMessagesResponse :=
  swrOptimisticMutate postReactionMutateOptions cache
    (fun data =>
      match rpc with
      | Except.ok _ =>
        Except.ok (updateMessageWithReaction parse stringify targetName userName
          emoji is_custom emoji_name data)
      | Except.error e => Except.error e)
    (fun data =>
      updateMessageWithReaction parse stringify targetName userName emoji
        is_custom emoji_name data)

/-- The fields of a pagination message (`Message` from the messaging types)
that `useChatPagination` touches.  `creation` is embedded as the epoch
milliseconds that `new Date(message.creation).getTime()` yields; `content`
stands for the remaining payload fields carried through the merge. -/
structure PagMessage where
  name : String
  creation : Nat
  modified : String
  key : Option String
  content : String
deriving DecidableEq

/-- One step of the `newMessages.forEach` merge in `addToMessages`
(`useChatPagination`, lines 29-36): `findIndex` by name then in-place
assignment, or `push` when the name is absent — i.e. replace the first
message with a matching name, else append. -/
def mergeStep (acc : List PagMessage) (nm : PagMessage) : List PagMessage :=
  match acc with
  | [] => [nm]
  | m :: rest => if m.name = nm.name then nm :: rest else m :: mergeStep rest nm

/-- The whole `forEach` loop: fold the merge step over the incoming batch. -/
def mergeMessages (prevMessages newMessages : List PagMessage) : List PagMessage :=
  newMessages.foldl mergeStep prevMessages

/-- The sort comparator `(a, b) => new Date(a.creation).getTime() - new
Date(b.creation).getTime()` as a boolean "less or equal" on embedded
creation times. -/
def msgLE (a b : PagMessage) : Bool :=
  decide (a.creation ≤ b.creation)

/-- The final `map` of `addToMessages`: `{ ...message, key :=
`${message.name}_${message.modified}` }`. -/
def withKey (m : PagMessage) : PagMessage :=
  { m with key := some (m.name ++ "_" ++ m.modified) }

/-- `addToMessages` from `useChatPagination` (lines 25-45): merge the
incoming batch into the previous list, sort ascending by creation time
(JS `Array.prototype.sort` is stable, as is `mergeSort`), and stamp each
message's `key`. -/
def addToMessages (prevMessages newMessages : List PagMessage) : List PagMessage :=
  ((mergeMessages prevMessages newMessages).mergeSort msgLE).map withKey

/-- First message with the given name (`findIndex` companion used to state
the merge's replacement behaviour). -/
def findByName (n : String) : List PagMessage → Option PagMessage
  | [] => none
  | m :: rest => if m.name = n then some m else findByName n rest

/-- Last message with the given name in a batch: the content that wins the
merge for that name. -/
def lastWithName (n : String) : List PagMessage → Option PagMessage
  | [] => none
  | m :: rest =>
    match lastWithName n rest with
    | some r => some r
    | none => if m.name = n then some m else none

/-- Number of messages with the given name. -/
def countName (n : String) (l : List PagMessage) : Nat :=
  l.countP (fun m => decide (m.name = n))

/-- The invariant of the `useChatPagination` message list: names are
unique and the list is sorted ascending by creation time. -/
def PagInv (l : List PagMessage) : Prop :=
  (l.map (fun m => m.name)).Nodup ∧
    List.Pairwise (fun a b => a.creation ≤ b.creation) l

/-- The `loadingOlderMessages` boolean of `useChatPagination` together
with the number of older-message fetches in flight. -/
structure OlderMessagesState where
  loadingOlderMessages : Bool
  outstandingFetches : Nat
deriving DecidableEq

/-- Modelled from the spec: the body of the older-message fetch is a TODO
in `useChatPagination` (lines 60-70) — only the guard and the flag writes
exist.  The spec says outstanding request de-duplication "don't fetch
older messages if already loading" is done with this boolean flag, so a
call that passes the guard starts one fetch (flag set first) and the
fetch's completion clears the flag. -/
def loadOlderMessages (s : OlderMessagesState) : OlderMessagesState :=
  if s.loadingOlderMessages then s
  else { loadingOlderMessages := true, outstandingFetches := s.outstandingFetches + 1 }

/-- Modelled from the spec: completion of an in-flight older-message fetch
clears the loading flag. -/
def olderFetchCompletes (s : OlderMessagesState) : OlderMessagesState :=
  if s.outstandingFetches = 0 then s
  else { loadingOlderMessages := false, outstandingFetches := s.outstandingFetches - 1 }

/-- Events acting on the older-message loading state. -/
inductive OlderEvent
  | load
  | complete
deriving DecidableEq

/-- One event step on the older-message loading state. -/
def olderStep (s : OlderMessagesState) : OlderEvent → OlderMessagesState
  | OlderEvent.load => loadOlderMessages s
  | OlderEvent.complete => olderFetchCompletes s

/-- Run from the hook's initial state `useState(false)`, no fetch in
flight. -/
def olderRun (events : List OlderEvent) : OlderMessagesState :=
  events.foldl olderStep { loadingOlderMessages := false, outstandingFetches := 0 }

/-- The fields of a chat-stream message that `useTTSAutoPlay` reads.
`is_bot_message` is `1` or `0`, not a boolean, as the source comments. -/
structure TTSMessage where
  name : String
  text : String
  is_bot_message : Nat
  message_type : String
deriving DecidableEq

/-- The refs of `useTTSAutoPlay`: `initialMessageCountRef`,
`lastProcessedMessageRef` and `isPlayingRef`. -/
structure TTSState where
  initialMessageCount : Option Nat
  lastProcessedMessage : Option String
  isPlaying : Bool
deriving DecidableEq

/-- The date-block / system filter: `messages?.filter(m =>
m.message_type !== 'date' && m.message_type !== 'System')`. -/
def actualMessages (msgs : List TTSMessage) : List TTSMessage :=
  msgs.filter (fun m =>
    decide (m.message_type ≠ "date") && decide (m.message_type ≠ "System"))

/-- `!plainText.trim()` is false exactly when some character survives
trimming, i.e. the string has a non-whitespace character. -/
def hasNonWhitespace (s : String) : Bool :=
  s.toList.any (fun c => !c.isWhitespace)

/-- The main auto-play effect of `useTTSAutoPlay` (the dedup block at
lines 459-479 and its surrounding guards): given the DOM text extraction
`htmlToText` (a platform service), the enablement flags, the current
message list and the refs, returns the updated refs and the message a
`nora.api.tts.generate_audio` request was issued for, if any. -/
def ttsEffect (htmlToText : String → String) (ttsEnabled isBot : Bool)
    (msgs : Option (List TTSMessage)) (s : TTSState) : TTSState × Option TTSMessage :=
  if !ttsEnabled || !isBot then (s, none)
  else
    let actual := actualMessages (msgs.getD [])
    match actual.getLast? with
    | none => (s, none)
    | some latest =>
      match s.initialMessageCount with
      | none =>
        ({ s with initialMessageCount := some actual.length,
                  lastProcessedMessage := some latest.name }, none)
      | some c =>
        if actual.length ≤ c then (s, none)
        else if s.lastProcessedMessage = some latest.name then (s, none)
        else if latest.is_bot_message ≠ 1 ∨ latest.text = "" then
          ({ s with lastProcessedMessage := some latest.name }, none)
        else if s.isPlaying then (s, none)
        else if hasNonWhitespace (htmlToText latest.text) then
          ({ s with lastProcessedMessage := some latest.name, isPlaying := true },
            some latest)
        else
          ({ s with lastProcessedMessage := some latest.name }, none)

/-- The reset effect of `useTTSAutoPlay`: when `messages` is undefined or
empty, both refs are cleared. -/
def ttsResetEffect (msgs : Option (List TTSMessage)) (s : TTSState) : TTSState :=
  match msgs with
  | none => { s with initialMessageCount := none, lastProcessedMessage := none }
  | some l =>
    if l.isEmpty then { s with initialMessageCount := none, lastProcessedMessage := none }
    else s

/-- Events driving `useTTSAutoPlay`: a message-list update (a render with
new `messages`), or the end of audio playback (`onended`, `onerror`, play
rejection, or API failure — all of which clear `isPlayingRef`). -/
inductive TTSEvent
  | update (msgs : Option (List TTSMessage))
  | audioEnded
deriving DecidableEq

/-- One event step: a message-list update runs the main effect followed by
the reset effect; audio ending clears the playing flag. -/
def ttsStep (htmlToText : String → String) (ttsEnabled isBot : Bool)
    (s : TTSState) : TTSEvent → TTSState × Option TTSMessage
  | TTSEvent.update msgs =>
    let r := ttsEffect htmlToText ttsEnabled isBot msgs s
    (ttsResetEffect msgs r.1, r.2)
  | TTSEvent.audioEnded => ({ s with isPlaying := false }, none)

/-- Run a sequence of events, collecting every message a TTS request was
issued for, in order. -/
def ttsRun (htmlToText : String → String) (ttsEnabled isBot : Bool)
    (s : TTSState) : List TTSEvent → TTSState × List TTSMessage
  | [] => (s, [])
  | e :: es =>
    let r := ttsStep htmlToText ttsEnabled isBot s e
    let rest := ttsRun htmlToText ttsEnabled isBot r.1 es
    (rest.1, (match r.2 with | some m => [m] | none => []) ++ rest.2)

/-- The payload of an `ai_thread_created` realtime event as read by
`AIThreadAutoOpen`; fields may be absent in a JS payload. -/
structure AIThreadEventData where
  is_ai_thread : Option Bool
  thread_id : Option String
  channel_id : Option String
deriving DecidableEq

/-- The navigation guard of `AIThreadAutoOpen` (lines 21-27):
`goToThread(data.thread_id)` runs exactly when `data.is_ai_thread &&
data.thread_id && data.channel_id && channelID === data.channel_id`, all
read with JS truthiness (an absent field or empty string is falsy).
Returns the thread navigated to, if any. -/
def aiThreadAutoOpenNavigation (channelID : String) (data : AIThreadEventData) :
    Option String :=
  match data.is_ai_thread, data.thread_id, data.channel_id with
  | some true, some tid, some cid =>
    if tid ≠ "" ∧ cid ≠ "" ∧ channelID = cid then some tid else none
  | _, _, _ => none

/-- Pointwise agreement of two reaction records up to the order of each
entry's `users` list: the same keys are present, and each key's entry has
the same `reaction`, `emoji_name` and `count`, with `users` a permutation
of the original. -/
def sameUpToUserOrder : Option ReactionObject → Option ReactionObject → Prop
  | none, none => True
  | some a, some b =>
    a.reaction = b.reaction ∧ a.emoji_name = b.emoji_name ∧ a.count = b.count ∧
      List.Perm a.users b.users
  | _, _ => False

/-- A two-entry reactions record used to evaluate the double-toggle claim:
user `u` and user `v` have both reacted with `smile`. -/
def sampleReactions : ReactionsRecord :=
  [("smile", { reaction := "smile", users := ["u", "v"], count := 2, emoji_name := "" })]

/-- A non-bot message, a bot message with text, and a second non-bot
message, used to drive the TTS auto-play state machine. -/
def ttsMsgA : TTSMessage :=
  { name := "a", text := "", is_bot_message := 0, message_type := "Text" }

/-- The bot message of the sample TTS run. -/
def ttsMsgB : TTSMessage :=
  { name := "b", text := "hi", is_bot_message := 1, message_type := "Text" }

/-- The trailing non-bot message of the sample TTS run. -/
def ttsMsgC : TTSMessage :=
  { name := "c", text := "x", is_bot_message := 0, message_type := "Text" }

/-- A sequence of message-list updates in which the bot message `b` is the
latest message, then is displaced by `c`, and becomes the latest again
after `c` disappears (a deletion): initial load, arrival of `b`, end of
`b`'s audio, arrival of `c`, removal of `c`. -/
def ttsSampleEvents : List TTSEvent :=
  [TTSEvent.update (some [ttsMsgA]),
   TTSEvent.update (some [ttsMsgA, ttsMsgB]),
   TTSEvent.audioEnded,
   TTSEvent.update (some [ttsMsgA, ttsMsgB, ttsMsgC]),
   TTSEvent.update (some [ttsMsgA, ttsMsgB])]

/-- A pagination message used to evaluate the merge claims. -/
def pagMsgA : PagMessage :=
  { name := "x", creation := 5, modified := "t1", key := none, content := "" }

/-- A second pagination message with a distinct name. -/
def pagMsgB : PagMessage :=
  { name := "y", creation := 3, modified := "t2", key := none, content := "" }

/-- A one-message cached response used to evaluate the post-success cache
update of `postReaction`. -/
def sampleCachedResponse : GetMessagesResponse :=
  { message :=
    { has_new_messages := false
      has_old_messages := true
      messages := [{ name := "m1", owner := "u", creation := "c1", modified := "t1",
                     text := "hello", message_reactions := none }] } }

end Raven

namespace Raven

theorem sameUpToUserOrder_refl (o : Option ReactionObject) : sameUpToUserOrder o o := by
  cases o with
  | none => trivial
  | some a => exact ⟨rfl, rfl, rfl, List.Perm.refl _⟩

theorem lookupReaction_mem {k : String} {r : ReactionsRecord} {ro : ReactionObject}
    (h : lookupReaction k r = some ro) : (k, ro) ∈ r := by
  induction r with
  | nil => simp [lookupReaction] at h
  | cons p rest ih =>
    obtain ⟨k', v'⟩ := p
    by_cases hk : k' = k
    · subst hk
      simp [lookupReaction] at h
      subst h
      exact List.mem_cons_self _ _
    · simp [lookupReaction, hk] at h
      exact List.mem_cons_of_mem _ (ih h)

theorem deleteReaction_eq_self {k : String} {r : ReactionsRecord}
    (h : lookupReaction k r = none) : deleteReaction k r = r := by
  induction r with
  | nil => rfl
  | cons p rest ih =>
    obtain ⟨k', v'⟩ := p
    by_cases hk : k' = k
    · subst hk; simp [lookupReaction] at h
    · simp [lookupReaction, hk] at h
      simp [deleteReaction, hk, ih h]

theorem deleteReaction_append (k : String) (a b : ReactionsRecord) :
    deleteReaction k (a ++ b) = deleteReaction k a ++ deleteReaction k b := by
  induction a with
  | nil => rfl
  | cons p rest ih =>
    obtain ⟨k', v'⟩ := p
    by_cases hk : k' = k
    · simp [deleteReaction, hk, ih]
    · simp [deleteReaction, hk, ih]

theorem lookupReaction_deleteReaction_self (k : String) (r : ReactionsRecord) :
    lookupReaction k (deleteReaction k r) = none := by
  induction r with
  | nil => rfl
  | cons p rest ih =>
    obtain ⟨k', v'⟩ := p
    by_cases hk : k' = k
    · simp [deleteReaction, hk, ih]
    · simp [deleteReaction, lookupReaction, hk, ih]

theorem lookupReaction_deleteReaction_ne {k' k : String} (h : k' ≠ k)
    (r : ReactionsRecord) :
    lookupReaction k' (deleteReaction k r) = lookupReaction k' r := by
  induction r with
  | nil => rfl
  | cons p rest ih =>
    obtain ⟨k₁, v₁⟩ := p
    by_cases hk : k₁ = k
    · subst hk
      have : k₁ ≠ k' := fun hc => h (hc.symm)
      simp [deleteReaction, lookupReaction, this, ih]
    · by_cases hk2 : k₁ = k'
      · subst hk2
        simp [deleteReaction, lookupReaction, hk]
      · simp [deleteReaction, lookupReaction, hk, hk2, ih]

theorem lookupReaction_append_left {k : String} {a : ReactionsRecord}
    {ro : ReactionObject} (h : lookupReaction k a = some ro) (b : ReactionsRecord) :
    lookupReaction k (a ++ b) = some ro := by
  induction a with
  | nil => simp [lookupReaction] at h
  | cons p rest ih =>
    obtain ⟨k', v'⟩ := p
    by_cases hk : k' = k
    · subst hk
      simp [lookupReaction] at h ⊢
      exact h
    · simp [lookupReaction, hk] at h ⊢
      exact ih h

theorem lookupReaction_append_right {k : String} {a : ReactionsRecord}
    (h : lookupReaction k a = none) (b : ReactionsRecord) :
    lookupReaction k (a ++ b) = lookupReaction k b := by
  induction a with
  | nil => rfl
  | cons p rest ih =>
    obtain ⟨k', v'⟩ := p
    by_cases hk : k' = k
    · subst hk; simp [lookupReaction] at h
    · simp [lookupReaction, hk] at h ⊢
      exact ih h

theorem lookupReaction_setReaction_self {k : String} {r : ReactionsRecord}
    {ro : ReactionObject} (h : lookupReaction k r = some ro) (v : ReactionObject) :
    lookupReaction k (setReaction k v r) = some v := by
  induction r with
  | nil => simp [lookupReaction] at h
  | cons p rest ih =>
    obtain ⟨k', v'⟩ := p
    by_cases hk : k' = k
    · subst hk; simp [setReaction, lookupReaction]
    · simp [lookupReaction, setReaction, hk] at h ⊢
      exact ih h

theorem lookupReaction_setReaction_ne {k' k : String} (h : k' ≠ k)
    (v : ReactionObject) (r : ReactionsRecord) :
    lookupReaction k' (setReaction k v r) = lookupReaction k' r := by
  induction r with
  | nil => rfl
  | cons p rest ih =>
    obtain ⟨k₁, v₁⟩ := p
    by_cases hk : k₁ = k
    · subst hk
      have : k₁ ≠ k' := fun hc => h (hc.symm)
      simp [setReaction, lookupReaction, this]
    · by_cases hk2 : k₁ = k'
      · subst hk2
        simp [setReaction, lookupReaction, hk]
      · simp [setReaction, lookupReaction, hk, hk2, ih]

theorem setReaction_setReaction (k : String) (v₁ v₂ : ReactionObject)
    (r : ReactionsRecord) :
    setReaction k v₂ (setReaction k v₁ r) = setReaction k v₂ r := by
  induction r with
  | nil => rfl
  | cons p rest ih =>
    obtain ⟨k', v'⟩ := p
    by_cases hk : k' = k
    · simp [setReaction, hk]
    · simp [setReaction, hk, ih]

theorem setReaction_eq_self {k : String} {r : ReactionsRecord} {v : ReactionObject}
    (h : lookupReaction k r = some v) : setReaction k v r = r := by
  induction r with
  | nil => rfl
  | cons p rest ih =>
    obtain ⟨k', v'⟩ := p
    by_cases hk : k' = k
    · subst hk
      simp [lookupReaction] at h
      simp [setReaction, h]
    · simp [lookupReaction, hk] at h
      simp [setReaction, hk, ih h]

theorem removeUser_eq_self {u : String} {l : List String} (h : u ∉ l) :
    removeUser u l = l := by
  induction l with
  | nil => rfl
  | cons x xs ih =>
    have hx : x ≠ u := fun hc => h (hc ▸ List.mem_cons_self _ _)
    have hxs : u ∉ xs := fun hc => h (List.mem_cons_of_mem _ hc)
    simp [removeUser, hx, ih hxs]

theorem not_mem_removeUser (u : String) (l : List String) :
    u ∉ removeUser u l := by
  induction l with
  | nil => simp [removeUser]
  | cons x xs ih =>
    by_cases hx : x = u
    · simpa [removeUser, hx] using ih
    · intro hc
      rw [removeUser, if_neg hx] at hc
      rcases List.mem_cons.mp hc with h1 | h1
      · exact hx h1.symm
      · exact ih h1

theorem removeUser_append (u : String) (a b : List String) :
    removeUser u (a ++ b) = removeUser u a ++ removeUser u b := by
  induction a with
  | nil => rfl
  | cons x xs ih =>
    by_cases hx : x = u
    · simp [removeUser, hx, ih]
    · simp [removeUser, hx, ih]

theorem removeUser_append_perm {u : String} {l : List String} (h : u ∈ l)
    (hnd : l.Nodup) : List.Perm (removeUser u l ++ [u]) l := by
  induction l with
  | nil => simp at h
  | cons x xs ih =>
    rcases List.nodup_cons.mp hnd with ⟨hx, hxs⟩
    by_cases hxu : x = u
    · subst hxu
      have : removeUser x xs = xs := removeUser_eq_self hx
      simp [removeUser, this]
    · have hu : u ∈ xs := by
        rcases List.mem_cons.mp h with h1 | h1
        · exact absurd h1.symm hxu
        · exact h1
      simp [removeUser, hxu, ih hu hxs]

end Raven

namespace Raven

theorem updateReactions_not_found {u emoji : String} {is_custom : Bool}
    {emoji_name : Option String} {r : ReactionsRecord}
    (h : lookupReaction (emojiKey emoji is_custom emoji_name) r = none) :
    updateReactions u emoji is_custom emoji_name r =
      r ++ [(emojiKey emoji is_custom emoji_name,
        { reaction := emoji, users := [u], count := 1,
          emoji_name := emoji_name.getD "" })] := by
  simp [updateReactions, h]

theorem updateReactions_remove_last {u emoji : String} {is_custom : Bool}
    {emoji_name : Option String} {r : ReactionsRecord} {ro : ReactionObject}
    (h : lookupReaction (emojiKey emoji is_custom emoji_name) r = some ro)
    (hm : u ∈ ro.users) (hc : ro.count = 1) :
    updateReactions u emoji is_custom emoji_name r =
      deleteReaction (emojiKey emoji is_custom emoji_name) r := by
  simp [updateReactions, h, hm, hc]

theorem updateReactions_decrement {u emoji : String} {is_custom : Bool}
    {emoji_name : Option String} {r : ReactionsRecord} {ro : ReactionObject}
    (h : lookupReaction (emojiKey emoji is_custom emoji_name) r = some ro)
    (hm : u ∈ ro.users) (hc : ro.count ≠ 1) :
    updateReactions u emoji is_custom emoji_name r =
      setReaction (emojiKey emoji is_custom emoji_name)
        { ro with users := removeUser u ro.users, count := ro.count - 1 } r := by
  simp [updateReactions, h, hm, hc]

theorem updateReactions_not_reacted {u emoji : String} {is_custom : Bool}
    {emoji_name : Option String} {r : ReactionsRecord} {ro : ReactionObject}
    (h : lookupReaction (emojiKey emoji is_custom emoji_name) r = some ro)
    (hm : u ∉ ro.users) :
    updateReactions u emoji is_custom emoji_name r =
      setReaction (emojiKey emoji is_custom emoji_name)
        { ro with users := ro.users ++ [u], count := ro.count + 1 } r := by
  simp [updateReactions, h, hm]

theorem lookupReaction_delete_append_ne {k k₀ : String} (hk : k ≠ k₀)
    (r : ReactionsRecord) (N : ReactionObject) :
    lookupReaction k (deleteReaction k₀ r ++ [(k₀, N)]) = lookupReaction k r := by
  have base := lookupReaction_deleteReaction_ne hk r
  cases hv : lookupReaction k (deleteReaction k₀ r) with
  | some v => rw [lookupReaction_append_left hv, ← base, hv]
  | none =>
    rw [lookupReaction_append_right hv, ← base, hv]
    simp [lookupReaction, Ne.symm hk]

/-- claim C1: the reaction cache merge of `useReactToMessage` updates the
target message's reactions record as a toggle on the emoji key — delete
the entry when the reacting user is its only reactor (count 1), remove the
user and decrement the count by exactly 1 when the count exceeds 1, append
the user and increment the count by exactly 1 when the user has not
reacted, and insert a fresh `{reaction, users := [u], count := 1,
emoji_name}` entry when the key is absent. -/
theorem claim_C1 (u emoji : String) (is_custom : Bool) (emoji_name : Option String)
    (r : ReactionsRecord) :
    (∀ ro, lookupReaction (emojiKey emoji is_custom emoji_name) r = some ro →
      u ∈ ro.users → ro.count = 1 →
      updateReactions u emoji is_custom emoji_name r =
        deleteReaction (emojiKey emoji is_custom emoji_name) r) ∧
    (∀ ro, lookupReaction (emojiKey emoji is_custom emoji_name) r = some ro →
      u ∈ ro.users → 1 < ro.count →
      updateReactions u emoji is_custom emoji_name r =
        setReaction (emojiKey emoji is_custom emoji_name)
          { reaction := ro.reaction, users := removeUser u ro.users,
            count := ro.count - 1, emoji_name := ro.emoji_name } r) ∧
    (∀ ro, lookupReaction (emojiKey emoji is_custom emoji_name) r = some ro →
      u ∉ ro.users →
      updateReactions u emoji is_custom emoji_name r =
        setReaction (emojiKey emoji is_custom emoji_name)
          { reaction := ro.reaction, users := ro.users ++ [u],
            count := ro.count + 1, emoji_name := ro.emoji_name } r) ∧
    (lookupReaction (emojiKey emoji is_custom emoji_name) r = none →
      updateReactions u emoji is_custom emoji_name r =
        r ++ [(emojiKey emoji is_custom emoji_name,
          { reaction := emoji, users := [u], count := 1,
            emoji_name := emoji_name.getD "" })]) := by
  refine ⟨?_, ?_, ?_, ?_⟩
  · intro ro hl hm hc
    exact updateReactions_remove_last hl hm hc
  · intro ro hl hm hc
    exact updateReactions_decrement hl hm (by omega)
  · intro ro hl hm
    exact updateReactions_not_reacted hl hm
  · intro hl
    exact updateReactions_not_found hl

/-- claim C1 witness: toggling `smile` for user `u` on the two-user sample
record takes the decrement branch. -/
theorem witness_C1 :
    updateReactions "u" "smile" false none sampleReactions =
      setReaction (emojiKey "smile" false none)
        { reaction := "smile", users := removeUser "u" ["u", "v"],
          count := (2 : Int) - 1, emoji_name := "" } sampleReactions :=
  (claim_C1 "u" "smile" false none sampleReactions).2.1
    { reaction := "smile", users := ["u", "v"], count := 2, emoji_name := "" }
    (by decide) (by decide) (by decide)

/-- claim C4 counterexample: on the sample record — which satisfies every
hypothesis of the claim (counts match users lengths, no duplicate users,
the sole-reactor condition is vacuous) — toggling `smile` for `u` twice
does not return the original record: the `users` list comes back reordered
(`["v", "u"]` instead of `["u", "v"]`). -/
theorem counterexample_C4 :
    (∀ p ∈ sampleReactions,
      (p.2).count = ((p.2).users).length ∧ ((p.2).users).Nodup) ∧
    (∀ p ∈ sampleReactions, (p.2).users = ["u"] →
      (p.2).reaction = "smile" ∧ (p.2).emoji_name = (none : Option String).getD "") ∧
    updateReactions "u" "smile" false none
        (updateReactions "u" "smile" false none sampleReactions) ≠ sampleReactions := by
  exact ⟨by decide, by decide, by decide⟩

end Raven

namespace Raven

/-- claim C4 (amended): on a well-formed reactions record (each count
equals its users length, users have no duplicates and are non-empty, and
any entry where the user is the sole reactor stores the passed emoji and
emoji name), applying the reaction toggle twice with identical arguments
returns a record with the same reactions as the original up to ordering:
every emoji key maps to an entry with the same reaction, emoji name and
count, whose users list is a permutation of the original. -/
theorem claim_C4 (u emoji : String) (is_custom : Bool) (emoji_name : Option String)
    (r : ReactionsRecord)
    (hwf : ∀ p ∈ r, (p.2).count = ((p.2).users).length ∧ ((p.2).users).Nodup)
    (hne : ∀ p ∈ r, (p.2).users ≠ [])
    (hsole : ∀ p ∈ r, (p.2).users = [u] →
      (p.2).reaction = emoji ∧ (p.2).emoji_name = emoji_name.getD "") :
    ∀ k, sameUpToUserOrder
      (lookupReaction k (updateReactions u emoji is_custom emoji_name
        (updateReactions u emoji is_custom emoji_name r)))
      (lookupReaction k r) := by
  cases h : lookupReaction (emojiKey emoji is_custom emoji_name) r with
  | none =>
    have e1 := updateReactions_not_found (u := u) h
    have h2 : lookupReaction (emojiKey emoji is_custom emoji_name)
        (r ++ [(emojiKey emoji is_custom emoji_name,
          { reaction := emoji, users := [u], count := 1,
            emoji_name := emoji_name.getD "" })]) =
        some { reaction := emoji, users := [u], count := 1,
               emoji_name := emoji_name.getD "" } := by
      rw [lookupReaction_append_right h]
      simp [lookupReaction]
    have e2 := updateReactions_remove_last h2 (List.mem_singleton.mpr rfl) rfl
    intro k
    rw [e1, e2, deleteReaction_append, deleteReaction_eq_self h]
    simp only [deleteReaction, if_pos, List.append_nil]
    exact sameUpToUserOrder_refl _
  | some ro =>
    have hmem := lookupReaction_mem h
    obtain ⟨hcnt, hnd⟩ := hwf _ hmem
    have hneu := hne _ hmem
    by_cases hm : u ∈ ro.users
    · by_cases hc : ro.count = 1
      · -- the user is the sole reactor: delete then re-insert
        have hlen : ro.users.length = 1 := by
          rw [hc] at hcnt
          exact_mod_cast hcnt.symm
        have husers : ro.users = [u] := by
          obtain ⟨a, ha⟩ := List.length_eq_one.mp hlen
          rw [ha] at hm
          rw [ha, List.mem_singleton.mp hm]
        obtain ⟨hre, hen⟩ := hsole _ hmem husers
        have hre2 : ro.reaction = emoji := hre
        have hen2 : ro.emoji_name = emoji_name.getD "" := hen
        have hN : ro = ⟨emoji, [u], 1, emoji_name.getD ""⟩ := by
          obtain ⟨a, b, c, d⟩ := ro
          dsimp only at hre2 hen2 husers hc
          rw [hre2, hen2, husers, hc]
        have e1 := updateReactions_remove_last h hm hc
        have h2 := lookupReaction_deleteReaction_self
          (emojiKey emoji is_custom emoji_name) r
        have e2 := updateReactions_not_found (u := u) h2
        intro k
        rw [e1, e2]
        by_cases hkk : k = emojiKey emoji is_custom emoji_name
        · subst hkk
          rw [lookupReaction_append_right h2, h]
          simp only [lookupReaction, if_pos rfl]
          rw [hN]
          exact sameUpToUserOrder_refl _
        · rw [lookupReaction_delete_append_ne hkk]
          exact sameUpToUserOrder_refl _
      · -- remove the user, then add them back at the end
        have e1 := updateReactions_decrement h hm hc
        have h2 := lookupReaction_setReaction_self h
          (⟨ro.reaction, removeUser u ro.users, ro.count - 1, ro.emoji_name⟩ : ReactionObject)
        have hm2 : u ∉
            (⟨ro.reaction, removeUser u ro.users, ro.count - 1, ro.emoji_name⟩ : ReactionObject).users :=
          not_mem_removeUser u ro.users
        have e2 := updateReactions_not_reacted h2 hm2
        intro k
        rw [e1, e2, setReaction_setReaction]
        by_cases hkk : k = emojiKey emoji is_custom emoji_name
        · subst hkk
          rw [lookupReaction_setReaction_self h, h]
          refine ⟨rfl, rfl, ?_, ?_⟩
          · show ro.count - 1 + 1 = ro.count
            omega
          · show List.Perm (removeUser u ro.users ++ [u]) ro.users
            exact removeUser_append_perm hm hnd
        · rw [lookupReaction_setReaction_ne hkk]
          exact sameUpToUserOrder_refl _
    · -- add the user, then remove them again: the record round-trips exactly
      have hneu2 : ro.users ≠ [] := hneu
      have hcnt2 : ro.count = (ro.users.length : Int) := hcnt
      have hlen1 : 0 < ro.users.length := List.length_pos.mpr hneu2
      have e1 := updateReactions_not_reacted h hm
      have h2 := lookupReaction_setReaction_self h
        (⟨ro.reaction, ro.users ++ [u], ro.count + 1, ro.emoji_name⟩ : ReactionObject)
      have hm2 : u ∈
          (⟨ro.reaction, ro.users ++ [u], ro.count + 1, ro.emoji_name⟩ : ReactionObject).users := by
        simp
      have hc2 :
          (⟨ro.reaction, ro.users ++ [u], ro.count + 1, ro.emoji_name⟩ : ReactionObject).count ≠ 1 := by
        show ro.count + 1 ≠ 1
        omega
      have e2 := updateReactions_decrement h2 hm2 hc2
      have hru : removeUser u (ro.users ++ [u]) = ro.users := by
        rw [removeUser_append, removeUser_eq_self hm]
        simp [removeUser]
      have hro2 :
          (⟨ro.reaction, removeUser u (ro.users ++ [u]), ro.count + 1 - 1, ro.emoji_name⟩ : ReactionObject) = ro := by
        rw [hru]
        have hcc : ro.count + 1 - 1 = ro.count := by omega
        rw [hcc]
      intro k
      rw [e1, e2, setReaction_setReaction, hro2, setReaction_eq_self h]
      exact sameUpToUserOrder_refl _

/-- claim C4 witness: the amended double-toggle theorem applied to the
sample record at key `smile`. -/
theorem witness_C4 :
    sameUpToUserOrder
      (lookupReaction "smile" (updateReactions "u" "smile" false none
        (updateReactions "u" "smile" false none sampleReactions)))
      (lookupReaction "smile" sampleReactions) :=
  claim_C4 "u" "smile" false none sampleReactions (by decide) (by decide)
    (by decide) "smile"

end Raven

namespace Raven

/-- claim C3: the reaction post is transactional on the cache — when the
`raven.api.reactions.react` RPC rejects, the rolled-back cache equals
exactly its value before the optimistic update; when it resolves, the
cache holds the optimistically merged value. -/
theorem claim_C3 (parse : String → ReactionsRecord)
    (stringify : ReactionsRecord → String) (targetName userName emoji : String)
    (is_custom : Bool) (emoji_name : Option String)
    (cache : Option GetMessagesResponse) :
    postReactionCache parse stringify targetName userName emoji is_custom
        emoji_name (Except.error ()) cache = cache ∧
    postReactionCache parse stringify targetName userName emoji is_custom
        emoji_name (Except.ok ()) cache =
      some (updateMessageWithReaction parse stringify targetName userName emoji
        is_custom emoji_name cache) := by
  constructor
  · simp [postReactionCache, swrOptimisticMutate, postReactionMutateOptions]
  · simp [postReactionCache, swrOptimisticMutate]

/-- claim C6: the optimistic reaction merge has a frame property — the
merged message list is a pointwise map in which every message whose name
differs from the target is returned unchanged, the response flags are
preserved whenever cached data is present, and on the target message every
field except `message_reactions` is preserved. -/
theorem claim_C6 (parse : String → ReactionsRecord)
    (stringify : ReactionsRecord → String) (targetName userName emoji : String)
    (is_custom : Bool) (emoji_name : Option String) (d : GetMessagesResponse) :
    (updateMessageWithReaction parse stringify targetName userName emoji
        is_custom emoji_name (some d)).message.messages =
      d.message.messages.map (applyReactionToMessage parse stringify targetName
        userName emoji is_custom emoji_name) ∧
    (∀ m : ChatMessage, m.name ≠ targetName →
      applyReactionToMessage parse stringify targetName userName emoji is_custom
        emoji_name m = m) ∧
    (∀ m : ChatMessage,
      (applyReactionToMessage parse stringify targetName userName emoji
        is_custom emoji_name m).name = m.name ∧
      (applyReactionToMessage parse stringify targetName userName emoji
        is_custom emoji_name m).owner = m.owner ∧
      (applyReactionToMessage parse stringify targetName userName emoji
        is_custom emoji_name m).creation = m.creation ∧
      (applyReactionToMessage parse stringify targetName userName emoji
        is_custom emoji_name m).modified = m.modified ∧
      (applyReactionToMessage parse stringify targetName userName emoji
        is_custom emoji_name m).text = m.text) ∧
    (updateMessageWithReaction parse stringify targetName userName emoji
        is_custom emoji_name (some d)).message.has_new_messages =
      d.message.has_new_messages ∧
    (updateMessageWithReaction parse stringify targetName userName emoji
        is_custom emoji_name (some d)).message.has_old_messages =
      d.message.has_old_messages := by
  refine ⟨rfl, ?_, ?_, rfl, rfl⟩
  · intro m hm
    simp [applyReactionToMessage, hm]
  · intro m
    by_cases hm : m.name ≠ targetName
    · simp [applyReactionToMessage, hm]
    · simp [applyReactionToMessage, hm]

/-- claim C6 witness: a message whose name differs from the target passes
through the reaction merge unchanged. -/
theorem witness_C6 :
    applyReactionToMessage (fun _ => []) (fun _ => "") "m2" "u" "smile" false none
      { name := "m1", owner := "u", creation := "c1", modified := "t1", text := "hello", message_reactions := none } =
      { name := "m1", owner := "u", creation := "c1", modified := "t1", text := "hello", message_reactions := none } :=
  (claim_C6 (fun _ => []) (fun _ => "") "m2" "u" "smile" false none
    sampleCachedResponse).2.1
    { name := "m1", owner := "u", creation := "c1", modified := "t1", text := "hello", message_reactions := none }
    (by decide)

/-- claim C9 counterexample: after a successful reaction RPC the cache is
not revalidated — the mutation passes `revalidate: false` and the
committed value is the local merge of the prior cached value, as evaluated
on a concrete cache. -/
theorem counterexample_C9 :
    postReactionMutateOptions.revalidate = false ∧
    postReactionCache (fun _ => []) (fun _ => "") "m1" "u" "smile" false none
        (Except.ok ()) (some sampleCachedResponse) =
      some (updateMessageWithReaction (fun _ => []) (fun _ => "") "m1" "u"
        "smile" false none (some sampleCachedResponse)) := by
  exact ⟨rfl, rfl⟩

/-- claim C9 (amended): after a successful reaction RPC the cache is set
in place to the locally merged value and revalidation is disabled
(`revalidate: false`); the pagination hook likewise handles message
add/update events with a pure local merge of the incoming batch into its
list. -/
theorem claim_C9 (parse : String → ReactionsRecord)
    (stringify : ReactionsRecord → String) (targetName userName emoji : String)
    (is_custom : Bool) (emoji_name : Option String)
    (cache : Option GetMessagesResponse) :
    postReactionMutateOptions.revalidate = false ∧
    postReactionCache parse stringify targetName userName emoji is_custom
        emoji_name (Except.ok ()) cache =
      some (updateMessageWithReaction parse stringify targetName userName emoji
        is_custom emoji_name cache) ∧
    (∀ prevMessages newMessages : List PagMessage,
      addToMessages prevMessages newMessages =
        ((mergeMessages prevMessages newMessages).mergeSort msgLE).map withKey) := by
  refine ⟨rfl, ?_, fun _ _ => rfl⟩
  simp [postReactionCache, swrOptimisticMutate]

theorem olderStep_inv {s : OlderMessagesState}
    (h : s.outstandingFetches = if s.loadingOlderMessages then 1 else 0)
    (e : OlderEvent) :
    (olderStep s e).outstandingFetches =
      if (olderStep s e).loadingOlderMessages then 1 else 0 := by
  cases e with
  | load =>
    by_cases hl : s.loadingOlderMessages
    · simpa [olderStep, loadOlderMessages, hl] using h
    · simp [hl] at h
      simp [olderStep, loadOlderMessages, hl, h]
  | complete =>
    by_cases ho : s.outstandingFetches = 0
    · simpa [olderStep, olderFetchCompletes, ho] using h
    · have hl : s.loadingOlderMessages = true := by
        by_contra hq
        rw [Bool.not_eq_true] at hq
        simp [hq] at h
        exact ho h
      simp [hl] at h
      simp [olderStep, olderFetchCompletes, ho, h]

theorem olderFold_inv (events : List OlderEvent) :
    ∀ s : OlderMessagesState,
      s.outstandingFetches = (if s.loadingOlderMessages then 1 else 0) →
      (events.foldl olderStep s).outstandingFetches =
        if (events.foldl olderStep s).loadingOlderMessages then 1 else 0 := by
  induction events with
  | nil => intro s h; exact h
  | cons e es ih =>
    intro s h
    exact ih (olderStep s e) (olderStep_inv h e)

/-- claim C7: older-message loads are deduplicated by the loading flag —
in every run there is at most one outstanding older-message fetch, a call
made while the flag is set is a no-op (no additional fetch starts), the
flag is set when a fetch begins, and completion clears it. -/
theorem claim_C7 :
    (∀ events : List OlderEvent,
      (olderRun events).outstandingFetches =
        (if (olderRun events).loadingOlderMessages then 1 else 0) ∧
      (olderRun events).outstandingFetches ≤ 1) ∧
    (∀ s : OlderMessagesState, s.loadingOlderMessages = true →
      loadOlderMessages s = s) ∧
    (∀ s : OlderMessagesState, s.loadingOlderMessages = false →
      (loadOlderMessages s).loadingOlderMessages = true ∧
      (loadOlderMessages s).outstandingFetches = s.outstandingFetches + 1) ∧
    (∀ s : OlderMessagesState, s.outstandingFetches ≠ 0 →
      (olderFetchCompletes s).loadingOlderMessages = false ∧
      (olderFetchCompletes s).outstandingFetches = s.outstandingFetches - 1) := by
  refine ⟨?_, ?_, ?_, ?_⟩
  · intro events
    have h := olderFold_inv events
      { loadingOlderMessages := false, outstandingFetches := 0 } (by simp)
    refine ⟨h, ?_⟩
    rw [olderRun] at *
    rw [h]
    split <;> omega
  · intro s hs
    simp [loadOlderMessages, hs]
  · intro s hs
    simp [loadOlderMessages, hs]
  · intro s hs
    simp [olderFetchCompletes, hs]

/-- claim C7 witness: a load requested while a fetch is already in flight
changes nothing. -/
theorem witness_C7 :
    loadOlderMessages { loadingOlderMessages := true, outstandingFetches := 1 } =
      { loadingOlderMessages := true, outstandingFetches := 1 } :=
  claim_C7.2.1 { loadingOlderMessages := true, outstandingFetches := 1 } rfl

end Raven

namespace Raven

/-- claim C8: AI-thread auto-navigation fires exactly when the event
payload has `is_ai_thread` set, a non-empty `thread_id`, and a non-empty
`channel_id` equal to the component's `channelID` prop; and when it fires
it navigates to the payload's `thread_id`. -/
theorem claim_C8 (channelID : String) (data : AIThreadEventData) :
    ((∃ t, aiThreadAutoOpenNavigation channelID data = some t) ↔
      (data.is_ai_thread = some true ∧
        (∃ tid, data.thread_id = some tid ∧ tid ≠ "") ∧
        data.channel_id = some channelID ∧ channelID ≠ "")) ∧
    (∀ t, aiThreadAutoOpenNavigation channelID data = some t →
      data.thread_id = some t) := by
  obtain ⟨ia, tid, cid⟩ := data
  constructor
  · cases ia with
    | none => simp [aiThreadAutoOpenNavigation]
    | some b =>
      cases b with
      | false => simp [aiThreadAutoOpenNavigation]
      | true =>
        cases tid with
        | none => simp [aiThreadAutoOpenNavigation]
        | some t0 =>
          cases cid with
          | none => simp [aiThreadAutoOpenNavigation]
          | some c0 =>
            by_cases h1 : t0 = ""
            · simp [aiThreadAutoOpenNavigation, h1]
            · by_cases h3 : channelID = c0
              · subst h3
                by_cases h2 : channelID = ""
                · simp [aiThreadAutoOpenNavigation, h1, h2]
                · simp [aiThreadAutoOpenNavigation, h1, h2]
              · simp [aiThreadAutoOpenNavigation, h1, h3]
                intro hc
                exact absurd hc.symm h3
  · intro t h
    cases ia with
    | none => simp [aiThreadAutoOpenNavigation] at h
    | some b =>
      cases b with
      | false => simp [aiThreadAutoOpenNavigation] at h
      | true =>
        cases tid with
        | none => simp [aiThreadAutoOpenNavigation] at h
        | some t0 =>
          cases cid with
          | none => simp [aiThreadAutoOpenNavigation] at h
          | some c0 =>
            simp only [aiThreadAutoOpenNavigation] at h
            split at h
            · simpa using h
            · simp at h

/-- claim C8 witness: a matching payload for channel `ch` navigates to its
thread `t1`. -/
theorem witness_C8 :
    (({ is_ai_thread := some true, thread_id := some "t1",
        channel_id := some "ch" } : AIThreadEventData)).thread_id = some "t1" :=
  (claim_C8 "ch" { is_ai_thread := some true, thread_id := some "t1", channel_id := some "ch" }).2
    "t1" (by decide)

end Raven

namespace Raven

theorem mem_mergeStep_of_ne {m nm : PagMessage} {acc : List PagMessage}
    (hmem : m ∈ acc) (hname : nm.name ≠ m.name) : m ∈ mergeStep acc nm := by
  induction acc with
  | nil => simp at hmem
  | cons a rest ih =>
    by_cases ha : a.name = nm.name
    · rw [mergeStep, if_pos ha]
      rcases List.mem_cons.mp hmem with h1 | h1
      · exact absurd (h1 ▸ ha) (fun hc => hname hc.symm)
      · exact List.mem_cons_of_mem _ h1
    · rw [mergeStep, if_neg ha]
      rcases List.mem_cons.mp hmem with h1 | h1
      · exact h1 ▸ List.mem_cons_self _ _
      · exact List.mem_cons_of_mem _ (ih h1)

theorem mem_mergeMessages_of_ne {m : PagMessage} {news : List PagMessage} :
    ∀ {prev : List PagMessage}, m ∈ prev → (∀ nm ∈ news, nm.name ≠ m.name) →
      m ∈ mergeMessages prev news := by
  induction news with
  | nil => intro prev hmem _; exact hmem
  | cons nm rest ih =>
    intro prev hmem h
    rw [mergeMessages, List.foldl_cons]
    exact ih (mem_mergeStep_of_ne hmem (h nm (List.mem_cons_self _ _)))
      (fun x hx => h x (List.mem_cons_of_mem _ hx))

theorem findByName_mergeStep (n : String) (acc : List PagMessage) (nm : PagMessage) :
    findByName n (mergeStep acc nm) =
      if nm.name = n then some nm else findByName n acc := by
  induction acc with
  | nil => simp [mergeStep, findByName]
  | cons a rest ih =>
    by_cases ha : a.name = nm.name
    · by_cases hn : nm.name = n
      · simp [mergeStep, ha, findByName, hn]
      · have han : ¬a.name = n := by rw [ha]; exact hn
        simp [mergeStep, ha, findByName, hn, han]
    · by_cases han : a.name = n
      · have hn : ¬nm.name = n := fun hc => ha (han.trans hc.symm)
        have hn2 : ¬n = nm.name := fun hc => hn hc.symm
        simp [mergeStep, ha, findByName, han, hn, hn2]
      · simp [mergeStep, ha, findByName, han, ih]

theorem findByName_mergeMessages (n : String) (news : List PagMessage) :
    ∀ prev : List PagMessage,
      findByName n (mergeMessages prev news) =
        (match lastWithName n news with
          | some r => some r
          | none => findByName n prev) := by
  induction news with
  | nil => intro prev; simp [mergeMessages, lastWithName]
  | cons nm rest ih =>
    intro prev
    rw [mergeMessages, List.foldl_cons]
    have h2 := ih (mergeStep prev nm)
    rw [mergeMessages] at h2
    rw [h2, findByName_mergeStep]
    cases hlw : lastWithName n rest with
    | some r => simp [lastWithName, hlw]
    | none =>
      by_cases hn : nm.name = n
      · simp [lastWithName, hlw, hn]
      · simp [lastWithName, hlw, hn]

theorem findByName_some_mem {n : String} {l : List PagMessage} {m : PagMessage}
    (h : findByName n l = some m) : m ∈ l := by
  induction l with
  | nil => simp [findByName] at h
  | cons a rest ih =>
    by_cases ha : a.name = n
    · simp [findByName, ha] at h
      exact h ▸ List.mem_cons_self _ _
    · simp [findByName, ha] at h
      exact List.mem_cons_of_mem _ (ih h)

theorem countName_mergeStep (n : String) (acc : List PagMessage) (nm : PagMessage) :
    countName n (mergeStep acc nm) =
      if nm.name = n ∧ countName n acc = 0 then 1 else countName n acc := by
  induction acc with
  | nil =>
    by_cases hn : nm.name = n
    · simp [mergeStep, countName, hn]
    · simp [mergeStep, countName, hn]
  | cons a rest ih =>
    rw [mergeStep]
    by_cases ha : a.name = nm.name
    · rw [if_pos ha]
      by_cases hn : nm.name = n
      · have han : a.name = n := ha.trans hn
        simp [countName, List.countP_cons, hn, han]
      · have han : ¬a.name = n := by rw [ha]; exact hn
        simp [countName, List.countP_cons, hn, han]
    · rw [if_neg ha]
      simp only [countName, List.countP_cons] at ih ⊢
      rw [ih]
      by_cases hn : nm.name = n
      · have han : ¬a.name = n := fun hc => ha (hc.trans hn.symm)
        simp [hn, han]
      · simp [hn]

theorem countName_mergeMessages (n : String) (news : List PagMessage) :
    ∀ prev : List PagMessage,
      countName n (mergeMessages prev news) =
        if countName n news = 0 then countName n prev
        else if countName n prev = 0 then 1 else countName n prev := by
  induction news with
  | nil => intro prev; simp [mergeMessages, countName]
  | cons nm rest ih =>
    intro prev
    rw [mergeMessages, List.foldl_cons]
    have h2 := ih (mergeStep prev nm)
    rw [mergeMessages] at h2
    rw [h2, countName_mergeStep]
    have hcons : countName n (nm :: rest) =
        countName n rest + (if nm.name = n then 1 else 0) := by
      simp [countName, List.countP_cons]
    rw [hcons]
    by_cases hn : nm.name = n <;> by_cases h0 : countName n prev = 0 <;>
      by_cases hr : countName n rest = 0 <;> simp [hn, h0, hr]

end Raven

namespace Raven

theorem addToMessages_sorted (prevMessages newMessages : List PagMessage) :
    List.Pairwise (fun a b => a.creation ≤ b.creation)
      (addToMessages prevMessages newMessages) := by
  have htrans : ∀ a b c : PagMessage, msgLE a b = true → msgLE b c = true →
      msgLE a c = true := by
    intro a b c hab hbc
    simp [msgLE] at *
    omega
  have htot : ∀ a b : PagMessage, (msgLE a b || msgLE b a) = true := by
    intro a b
    simp [msgLE]
    omega
  have h := List.sorted_mergeSort htrans htot
    (mergeMessages prevMessages newMessages)
  rw [addToMessages]
  refine List.pairwise_map.mpr (h.imp ?_)
  intro a b hab
  simpa [msgLE, withKey] using hab

theorem addToMessages_keys (prevMessages newMessages : List PagMessage) :
    ∀ m ∈ addToMessages prevMessages newMessages,
      m.key = some (m.name ++ "_" ++ m.modified) := by
  intro m hm
  rw [addToMessages] at hm
  obtain ⟨m0, _, rfl⟩ := List.mem_map.mp hm
  simp [withKey]

theorem mem_of_mem_mergeStep {x : PagMessage} {acc : List PagMessage}
    {nm : PagMessage} (h : x ∈ mergeStep acc nm) : x ∈ acc ∨ x = nm := by
  induction acc with
  | nil =>
    simp [mergeStep] at h
    exact Or.inr h
  | cons a rest ih =>
    rw [mergeStep] at h
    by_cases ha : a.name = nm.name
    · rw [if_pos ha] at h
      rcases List.mem_cons.mp h with h1 | h1
      · exact Or.inr h1
      · exact Or.inl (List.mem_cons_of_mem _ h1)
    · rw [if_neg ha] at h
      rcases List.mem_cons.mp h with h1 | h1
      · exact Or.inl (h1 ▸ List.mem_cons_self _ _)
      · rcases ih h1 with h2 | h2
        · exact Or.inl (List.mem_cons_of_mem _ h2)
        · exact Or.inr h2

theorem mem_of_mem_mergeMessages {x : PagMessage} {newMessages : List PagMessage} :
    ∀ {prevMessages : List PagMessage}, x ∈ mergeMessages prevMessages newMessages →
      x ∈ prevMessages ∨ x ∈ newMessages := by
  induction newMessages with
  | nil => intro prev h; exact Or.inl h
  | cons nm rest ih =>
    intro prev h
    rw [mergeMessages, List.foldl_cons] at h
    rcases ih h with h1 | h1
    · rcases mem_of_mem_mergeStep h1 with h2 | h2
      · exact Or.inl h2
      · exact Or.inr (h2 ▸ List.mem_cons_self _ _)
    · exact Or.inr (List.mem_cons_of_mem _ h1)

theorem names_nodup_mergeStep {acc : List PagMessage}
    (h : (acc.map (fun m => m.name)).Nodup) (nm : PagMessage) :
    ((mergeStep acc nm).map (fun m => m.name)).Nodup := by
  induction acc with
  | nil => simp [mergeStep]
  | cons a rest ih =>
    rw [List.map_cons, List.nodup_cons] at h
    obtain ⟨hna, hnd⟩ := h
    rw [mergeStep]
    by_cases ha : a.name = nm.name
    · rw [if_pos ha, List.map_cons, List.nodup_cons]
      exact ⟨ha ▸ hna, hnd⟩
    · rw [if_neg ha, List.map_cons, List.nodup_cons]
      refine ⟨?_, ih hnd⟩
      intro hc
      obtain ⟨x, hx, hxn⟩ := List.mem_map.mp hc
      rcases mem_of_mem_mergeStep hx with h1 | h1
      · exact hna (List.mem_map.mpr ⟨x, h1, hxn⟩)
      · exact ha (hxn.symm.trans (congrArg (fun m => PagMessage.name m) h1))

theorem names_nodup_mergeMessages {newMessages : List PagMessage} :
    ∀ {prevMessages : List PagMessage},
      (prevMessages.map (fun m => m.name)).Nodup →
      ((mergeMessages prevMessages newMessages).map (fun m => m.name)).Nodup := by
  induction newMessages with
  | nil => intro prev h; exact h
  | cons nm rest ih =>
    intro prev h
    rw [mergeMessages, List.foldl_cons]
    exact ih (names_nodup_mergeStep h nm)

theorem addToMessages_names_nodup {prevMessages : List PagMessage}
    (h : (prevMessages.map (fun m => m.name)).Nodup)
    (newMessages : List PagMessage) :
    ((addToMessages prevMessages newMessages).map (fun m => m.name)).Nodup := by
  rw [addToMessages, List.map_map]
  have hcomp : ((fun m => PagMessage.name m) ∘ withKey) = fun m => m.name := by
    funext m
    simp [withKey]
  rw [hcomp]
  have hperm := (List.mergeSort_perm (mergeMessages prevMessages newMessages)
    msgLE).map (fun m => m.name)
  exact (hperm.nodup_iff).mpr (names_nodup_mergeMessages h)

/-- claim C2: the pagination merge `addToMessages` replaces matched names
with the incoming content, adds fresh names, drops nothing else, sorts the
result ascending by creation time, and stamps every message's `key` as
`name ++ "_" ++ modified`.  Replacement and addition are expressed by: the
last incoming message of each name appears in the result; a previous
message whose name is not in the batch appears in the result; per-name
counts are preserved for names already present and become one for fresh
names; and every result message comes from the previous list or the batch. -/
theorem claim_C2 (prevMessages newMessages : List PagMessage) :
    List.Pairwise (fun a b => a.creation ≤ b.creation)
      (addToMessages prevMessages newMessages) ∧
    (∀ m ∈ addToMessages prevMessages newMessages,
      m.key = some (m.name ++ "_" ++ m.modified)) ∧
    (∀ m ∈ prevMessages, (∀ nm ∈ newMessages, nm.name ≠ m.name) →
      withKey m ∈ addToMessages prevMessages newMessages) ∧
    (∀ n nm, lastWithName n newMessages = some nm →
      withKey nm ∈ addToMessages prevMessages newMessages) ∧
    (∀ n, countName n (addToMessages prevMessages newMessages) =
      if countName n newMessages = 0 then countName n prevMessages
      else if countName n prevMessages = 0 then 1
      else countName n prevMessages) ∧
    (∀ m ∈ addToMessages prevMessages newMessages,
      ∃ m0, (m0 ∈ prevMessages ∨ m0 ∈ newMessages) ∧ m = withKey m0) := by
  refine ⟨addToMessages_sorted _ _, addToMessages_keys _ _, ?_, ?_, ?_, ?_⟩
  · intro m hm hn
    have h1 : m ∈ mergeMessages prevMessages newMessages :=
      mem_mergeMessages_of_ne hm hn
    have h2 : m ∈ (mergeMessages prevMessages newMessages).mergeSort msgLE :=
      ((List.mergeSort_perm _ msgLE).mem_iff).mpr h1
    exact List.mem_map_of_mem withKey h2
  · intro n nm hlw
    have h0 := findByName_mergeMessages n newMessages prevMessages
    rw [hlw] at h0
    have h1 : nm ∈ mergeMessages prevMessages newMessages :=
      findByName_some_mem h0
    have h2 : nm ∈ (mergeMessages prevMessages newMessages).mergeSort msgLE :=
      ((List.mergeSort_perm _ msgLE).mem_iff).mpr h1
    exact List.mem_map_of_mem withKey h2
  · intro n
    have hmap : countName n (addToMessages prevMessages newMessages) =
        countName n (mergeMessages prevMessages newMessages) := by
      rw [addToMessages, countName, List.countP_map]
      have hp : ((fun m => decide (m.name = n)) ∘ withKey) =
          fun m : PagMessage => decide (m.name = n) := by
        funext m
        simp [withKey]
      rw [hp]
      exact (List.mergeSort_perm _ msgLE).countP_eq _
    rw [hmap, countName_mergeMessages]
  · intro m hm
    rw [addToMessages] at hm
    obtain ⟨m0, hm0, rfl⟩ := List.mem_map.mp hm
    have h1 : m0 ∈ mergeMessages prevMessages newMessages :=
      ((List.mergeSort_perm _ msgLE).mem_iff).mp hm0
    exact ⟨m0, mem_of_mem_mergeMessages h1, rfl⟩

/-- claim C2 witness: merging a fresh-named batch keeps the untouched
previous message in the sorted, keyed result. -/
theorem witness_C2 :
    withKey pagMsgA ∈ addToMessages [pagMsgA] [pagMsgB] :=
  (claim_C2 [pagMsgA] [pagMsgB]).2.2.1 pagMsgA (by decide) (by decide)

/-- claim C10: the chat list invariant — at most one message per name and
ascending creation order — holds after every `addToMessages` starting from
the empty list, and `addToMessages` preserves it from any list satisfying
it. -/
theorem claim_C10 :
    (∀ batches : List (List PagMessage),
      PagInv (batches.foldl addToMessages [])) ∧
    (∀ prevMessages newMessages : List PagMessage, PagInv prevMessages →
      PagInv (addToMessages prevMessages newMessages)) := by
  have hstep : ∀ prevMessages newMessages : List PagMessage, PagInv prevMessages →
      PagInv (addToMessages prevMessages newMessages) := by
    intro prev news h
    exact ⟨addToMessages_names_nodup h.1 news, addToMessages_sorted prev news⟩
  have hfold : ∀ (batches : List (List PagMessage)) (l : List PagMessage),
      PagInv l → PagInv (batches.foldl addToMessages l) := by
    intro batches
    induction batches with
    | nil => intro l h; exact h
    | cons b bs ih =>
      intro l h
      rw [List.foldl_cons]
      exact ih _ (hstep l b h)
  refine ⟨fun batches => hfold batches [] ⟨by simp, by simp⟩, hstep⟩

/-- claim C10 witness: the invariant holds after merging a batch into the
empty list. -/
theorem witness_C10 : PagInv (addToMessages [] [pagMsgA, pagMsgB]) :=
  claim_C10.2 [] [pagMsgA, pagMsgB] ⟨by simp, by simp⟩

end Raven

namespace Raven

theorem ttsMsgs_nonempty {msgs : Option (List TTSMessage)} {x : TTSMessage}
    (h : (actualMessages (msgs.getD [])).getLast? = some x) :
    ∃ l, msgs = some l ∧ l.isEmpty = false := by
  cases msgs with
  | none => simp [actualMessages] at h
  | some l =>
    cases l with
    | nil => simp [actualMessages] at h
    | cons a as => exact ⟨a :: as, rfl, rfl⟩

/-- claim C5 counterexample: over the sample update sequence — in which
the bot message `b` becomes the latest message, is played, is displaced by
`c`, and becomes the latest again after `c` is removed — the auto-play
effect issues two `generate_audio` requests for the same message `b`, so
"the same message is never played twice" fails. -/
theorem counterexample_C5 :
    ((ttsRun id true true
        { initialMessageCount := none, lastProcessedMessage := none,
          isPlaying := false } ttsSampleEvents).2.map (fun m => m.name)) =
      ["b", "b"] ∧
    ¬ ((ttsRun id true true
        { initialMessageCount := none, lastProcessedMessage := none,
          isPlaying := false } ttsSampleEvents).2.map (fun m => m.name)).Nodup := by
  exact ⟨by decide, by decide⟩

/-- claim C5 (amended): the auto-play effect never issues a request for a
message whose name equals the currently last-processed name — a request is
only issued on a message-list update, for the latest actual message, when
it is a bot message (`is_bot_message = 1`) with non-empty text, its name
differs from the last processed name, and no audio is playing; issuing the
request records the name as processed and sets the playing flag (so the
same message is never played twice in direct succession). -/
theorem claim_C5 (htmlToText : String → String) (ttsEnabled isBot : Bool)
    (s : TTSState) (e : TTSEvent) (m : TTSMessage)
    (hreq : (ttsStep htmlToText ttsEnabled isBot s e).2 = some m) :
    s.lastProcessedMessage ≠ some m.name ∧
    s.isPlaying = false ∧
    m.is_bot_message = 1 ∧
    m.text ≠ "" ∧
    ∃ msgs, e = TTSEvent.update msgs ∧
      (actualMessages (msgs.getD [])).getLast? = some m ∧
      (ttsStep htmlToText ttsEnabled isBot s e).1.lastProcessedMessage =
        some m.name ∧
      (ttsStep htmlToText ttsEnabled isBot s e).1.isPlaying = true := by
  cases e with
  | audioEnded => simp [ttsStep] at hreq
  | update msgs =>
    have h : (ttsEffect htmlToText ttsEnabled isBot msgs s).2 = some m := by
      simpa [ttsStep] using hreq
    cases hguard : (!ttsEnabled || !isBot) with
    | true => simp [ttsEffect, hguard] at h
    | false =>
      cases hlast : (actualMessages (msgs.getD [])).getLast? with
      | none => simp [ttsEffect, hguard, hlast] at h
      | some latest =>
        cases hinit : s.initialMessageCount with
        | none => simp [ttsEffect, hguard, hlast, hinit] at h
        | some c =>
          by_cases hlen : (actualMessages (msgs.getD [])).length ≤ c
          · simp [ttsEffect, hguard, hlast, hinit, hlen] at h
          · by_cases hlp : s.lastProcessedMessage = some latest.name
            · simp [ttsEffect, hguard, hlast, hinit, hlen, hlp] at h
            · by_cases hbot : latest.is_bot_message ≠ 1 ∨ latest.text = ""
              · simp [ttsEffect, hguard, hlast, hinit, hlen, hlp, hbot] at h
              · by_cases hplay : s.isPlaying
                · simp [ttsEffect, hguard, hlast, hinit, hlen, hlp, hbot,
                    hplay] at h
                · by_cases hws : hasNonWhitespace (htmlToText latest.text)
                  · have hlm : latest = m := by
                      simpa [ttsEffect, hguard, hlast, hinit, hlen, hlp, hbot,
                        hplay, hws] using h
                    subst hlm
                    have hbots := hbot
                    push_neg at hbots
                    obtain ⟨l, hl, hle⟩ := ttsMsgs_nonempty hlast
                    subst hl
                    have hlast2 : (actualMessages l).getLast? = some latest := by
                      simpa using hlast
                    have hlen2 : ¬(actualMessages l).length ≤ c := by
                      simpa using hlen
                    refine ⟨hlp, by simpa using hplay, hbots.1, hbots.2,
                      some l, rfl, hlast, ?_, ?_⟩
                    · simp [ttsStep, ttsResetEffect, hle, ttsEffect, hguard,
                        hlast2, hinit, hlen2, hlp, hbot, hplay, hws]
                    · simp [ttsStep, ttsResetEffect, hle, ttsEffect, hguard,
                        hlast2, hinit, hlen2, hlp, hbot, hplay, hws]
                  · simp [ttsEffect, hguard, hlast, hinit, hlen, hlp, hbot,
                      hplay, hws] at h

/-- claim C5 witness: in a state whose last processed message is `a`, a
request issued for the arriving bot message `b` certifies that `b` was not
the last processed message. -/
theorem witness_C5 :
    ({ initialMessageCount := some 1, lastProcessedMessage := some "a",
       isPlaying := false } : TTSState).lastProcessedMessage ≠
      some ttsMsgB.name :=
  (claim_C5 id true true
    { initialMessageCount := some 1, lastProcessedMessage := some "a",
      isPlaying := false }
    (TTSEvent.update (some [ttsMsgA, ttsMsgB])) ttsMsgB (by decide)).1

end Raven
